import Mathlib

/-!
# Verification of the vidyut segmenter, derivation stack and scheme enumeration

This file gives a shallow embedding of the core of the `vidyut` repository:

* `src/src/segmenting.rs` — the best-first segmenter search (`segment`,
  `analyze_pada`, `Phrase`, `Word`), embedded over explicit state passing.
  Its collaborators (`sandhi::Sandhi::split_all`, the `Kosha` lexicon,
  the scoring `Model`, `sounds::is_sanskrit`, `strict_mode::is_valid_word`,
  `normalize`) live in modules that are not part of the sources under
  inspection, so they are carried as function-valued fields of the
  `Segmenter` context, exactly as the Rust code treats them as black boxes.
  The `priority_queue::PriorityQueue` is embedded as a list of
  (item, priority) pairs with a max-pop; the `HashMap`s are embedded as
  association lists with insert-replaces-key semantics.
* `src/vidyut-prakriya/src/prakriya_stack.rs` — the derivation stack
  (`PrakriyaStack::find_all`, `add_prakriya`).
* `src/vidyut-lipi/src/scheme.rs` — the `Scheme` enum and the constant
  array backing `Scheme::iter()`.

The Rust loop in `segment` has no syntactic termination measure, so the
embedding runs it on explicit fuel; running out of fuel is reported as a
distinct outcome (`LoopOut.fuel_out`) which also exposes the intermediate
search states for stating reachability properties.
-/

namespace Vidyut

/-- Embeds `vidyut_kosha::semantics::Pada`. The segmenter core treats an
analysis as an opaque equatable tag, plus the sentinel `Pada::None`;
the opaque payload is embedded as a `Nat`. -/
inductive Pada where
  | none
  | tag (n : Nat)
  deriving DecidableEq

/-- Embeds `Word` from `segmenting.rs`: a surface string and its analysis. -/
structure Word where
  text : String
  semantics : Pada
  deriving DecidableEq

/-- Embeds `Phrase` from `segmenting.rs`: words recognized so far, the
unconsumed suffix, and the running score (`i32` in Rust; no arithmetic is
performed on it by the segmenter itself, so it is embedded as `Int`). -/
structure Phrase where
  words : List Word
  remaining : String
  score : Int
  deriving DecidableEq

/-- Embeds `Phrase::new`: empty word list, full remaining text, score 0. -/
def Phrase.new (text : String) : Phrase :=
  { words := [], remaining := text, score := 0 }

/-- Embeds `sandhi::Split`. The fields `first`, `second`,
`is_end_of_chunk` are the Rust struct's fields. `sandhi.rs` is not among
the sources, so the result of the phonetic-validity method `is_valid()` is
carried as the boolean field `valid` (per split, whatever the splitter
computed). -/
structure Split where
  first : String
  second : String
  is_end_of_chunk : Bool
  valid : Bool
  deriving DecidableEq

/-- Embeds `Split::is_valid()` (reads the carried boolean). -/
def Split.is_valid (sp : Split) : Bool := sp.valid

/-- Modelled from the spec: `is_recursive`: `second == s` — the split
would produce no progress. (`sandhi.rs` itself is not among the sources;
the spec defines the predicate exactly as this equality.) -/
def Split.is_recursive (sp : Split) (s : String) : Bool := sp.second == s

/-- Embeds the lexicon handle interface used by `analyze_pada`:
`get_all(text) -> [handle]` and `unpack(handle) -> Result<Pada>`.
Handles are opaque (`Nat`); `unpack` may fail. -/
structure Kosha where
  get_all : String → List Nat
  unpack : Nat → Except String Pada

/-- Embeds the scoring model interface used by `segment`:
`model.score(&phrase) -> i32`. -/
structure Model where
  score : Phrase → Int

/-- Embeds the `Segmenter` context: its owned collaborators, all immutable
during a `segment` call. Function-valued fields stand for the collaborator
modules that are outside the inspected sources. -/
structure Segmenter where
  split_all : String → List Split
  lexicon : Kosha
  model : Model
  is_sanskrit : Char → Bool
  is_valid_word : Phrase → Split → Pada → Bool
  normalize : String → String

/-- Embeds Rust's `text.starts_with(|c| !is_sanskrit(c))`: true iff the
string is nonempty and its first character is not Sanskrit. -/
def startsWithNonSanskrit (isSk : Char → Bool) (s : String) : Bool :=
  match s.data with
  | [] => false
  | c :: _ => !(isSk c)

/-- Helper for `splitOnceSpace`, working on the character list. -/
def splitOnceChars : List Char → Option (List Char × List Char)
  | [] => Option.none
  | c :: rest =>
    if c = ' ' then some ([], rest)
    else
      match splitOnceChars rest with
      | some (a, b) => some (c :: a, b)
      | Option.none => Option.none

/-- Embeds Rust's `s.split_once(' ')`: split at the first space, the space
belonging to neither part; `none` when there is no space. -/
def splitOnceSpace (s : String) : Option (String × String) :=
  (splitOnceChars s.data).map (fun ab => (String.mk ab.1, String.mk ab.2))

/-- Association-list insert with replace-on-collision, embedding
`HashMap::insert`. -/
def alInsert {β : Type} (m : List (String × β)) (k : String) (b : β) :
    List (String × β) :=
  (k, b) :: m.filter (fun kv => kv.1 != k)

/-- The Viterbi cache of `segment`:
`HashMap<remaining, HashMap<state, Phrase>>`. Only the constant state key
`"STATE"` is ever used by the code. -/
def VCache : Type := List (String × List (String × Phrase))

instance : DecidableEq VCache := by
  unfold VCache
  infer_instance

/-- The inner map stored in the Viterbi cache under a `remaining` key
(empty when the key is absent). -/
def vLookupInner (v : VCache) (r : String) : List (String × Phrase) :=
  (List.lookup r v).getD []

/-- Embeds `viterbi_cache.entry(r).or_insert_with(HashMap::new)`: create
the key with an empty inner map when absent. -/
def vEnsure (v : VCache) (r : String) : VCache :=
  if (List.lookup r v).isSome then v else alInsert v r []

/-- Embeds `viterbi_cache.entry(r).or_insert_with(HashMap::new)
.insert("STATE", p)`. -/
def vInsert (v : VCache) (r : String) (p : Phrase) : VCache :=
  alInsert v r (alInsert (vLookupInner v r) "STATE" p)

/-- The phrase stored for a `remaining` key under the constant state key
`"STATE"`, if any. -/
def vState (v : VCache) (r : String) : Option Phrase :=
  List.lookup "STATE" (vLookupInner v r)

/-- Embeds `analyze_pada` from `segmenting.rs`: on a cache miss, query the
lexicon, unpack every handle (propagating the first unpack failure), add
the sentinel `Pada::None` when the split was end-of-chunk or the text
starts with a non-Sanskrit character, and store the list; on a hit, leave
the cache untouched. -/
def analyze_pada (text : String) (split : Split) (ctx : Segmenter)
    (cache : List (String × List Pada)) :
    Except String (List (String × List Pada)) :=
  if (List.lookup text cache).isSome then Except.ok cache
  else
    match (ctx.lexicon.get_all text).mapM ctx.lexicon.unpack with
    | Except.error e => Except.error e
    | Except.ok res =>
      let res :=
        if split.is_end_of_chunk || startsWithNonSanskrit ctx.is_sanskrit text
        then res ++ [Pada.none] else res
      Except.ok ((text, res) :: cache)

/-- The successor phrase as first constructed in the sandhi-expansion loop
of `segment`: words of `cur` plus the word for `split.first`, remaining
set to `split.second`, and the interim score copied from the popped
priority `cur_score` (the `HACK: this is buggy` line in the source) before
the model rescore overwrites it. -/
def mkSuccessor (cur : Phrase) (cur_score : Int) (split : Split)
    (sem : Pada) : Phrase :=
  { words := cur.words ++ [{ text := split.first, semantics := sem }],
    remaining := split.second,
    score := cur_score }

/-- The successor phrase after `new.score = ctx.model.score(&new)`. -/
def rescored (ctx : Segmenter) (cur : Phrase) (cur_score : Int)
    (split : Split) (sem : Pada) : Phrase :=
  let interim := mkSuccessor cur cur_score split sem
  { interim with score := ctx.model.score interim }

/-- Embeds the body of the `for semantics in …` loop of `segment`: the
strict-mode filter, successor construction and rescore, the Viterbi
dominance check (with the `entry().or_insert_with()` side effect even on
discard), and the conditional install and push. The accumulator carries
the Viterbi cache and the priority queue. -/
def tryAdd (ctx : Segmenter) (cur : Phrase) (cur_score : Int)
    (split : Split) (acc : VCache × List (Phrase × Int)) (sem : Pada) :
    VCache × List (Phrase × Int) :=
  if ctx.is_valid_word cur split sem then
    let new := rescored ctx cur cur_score split sem
    let v1 := vEnsure acc.1 new.remaining
    let new_score := new.score
    match vState v1 new.remaining with
    | some rival =>
      if rival.score ≥ new.score then (v1, acc.2)
      else (vInsert v1 new.remaining new, (new, new_score) :: acc.2)
    | Option.none => (vInsert v1 new.remaining new, (new, new_score) :: acc.2)
  else acc

/-- Embeds the body of the `for split in …` loop of `segment`: skip the
split unless it `is_valid()` and is not `is_recursive`; otherwise populate
the word cache via `analyze_pada` and fold `tryAdd` over the cached
analyses (`word_cache.get(first).unwrap_or(&no_results)`). -/
def processSplit (ctx : Segmenter) (cur : Phrase) (cur_score : Int)
    (split : Split)
    (acc : List (String × List Pada) × VCache × List (Phrase × Int)) :
    Except String (List (String × List Pada) × VCache × List (Phrase × Int)) :=
  if split.is_valid && !(split.is_recursive cur.remaining) then
    match analyze_pada split.first split ctx acc.1 with
    | Except.error e => Except.error e
    | Except.ok wc =>
      let sems := (List.lookup split.first wc).getD []
      let vp := sems.foldl (tryAdd ctx cur cur_score split) (acc.2.1, acc.2.2)
      Except.ok (wc, vp.1, vp.2)
  else Except.ok acc

/-- Folds `processSplit` over all splits of `cur.remaining`, threading the
word cache, the Viterbi cache and the queue. -/
def expandSplits (ctx : Segmenter) (cur : Phrase) (cur_score : Int) :
    List Split → List (String × List Pada) × VCache × List (Phrase × Int) →
    Except String (List (String × List Pada) × VCache × List (Phrase × Int))
  | [], acc => Except.ok acc
  | sp :: rest, acc =>
    match processSplit ctx cur cur_score sp acc with
    | Except.error e => Except.error e
    | Except.ok acc' => expandSplits ctx cur cur_score rest acc'

/-- The mutable state of the `segment` loop: the priority queue (list of
(phrase, priority) pairs), the word-analysis cache, and the Viterbi
cache. -/
structure SearchState where
  pq : List (Phrase × Int)
  word_cache : List (String × List Pada)
  viterbi : VCache
  deriving DecidableEq

/-- Embeds `PriorityQueue::pop`: remove and return a pair of maximal
priority (the leftmost maximum; the Rust queue leaves ties arbitrary). -/
def pqPop : List (Phrase × Int) → Option ((Phrase × Int) × List (Phrase × Int))
  | [] => Option.none
  | x :: xs =>
    match pqPop xs with
    | Option.none => some (x, [])
    | some (y, rest) =>
      if x.2 ≥ y.2 then some (x, xs) else some (y, x :: rest)

/-- How an execution of the `while !pq.is_empty()` loop of `segment`
ends: the queue became empty, or a phrase with empty remaining text was
popped (the `break`). Both carry the Viterbi cache at that moment, from
which the function's return value is computed. -/
inductive LoopEnd where
  | emptyQueue (v : VCache)
  | popped (cur : Phrase) (v : VCache)
  deriving DecidableEq

/-- The Viterbi cache at the end of the loop. -/
def LoopEnd.vcache : LoopEnd → VCache
  | LoopEnd.emptyQueue v => v
  | LoopEnd.popped _ v => v

/-- Result of running the loop on fuel: it ended, or the fuel ran out with
the search in the carried intermediate state. -/
inductive LoopOut where
  | ended (e : LoopEnd)
  | fuel_out (st : SearchState)
  deriving DecidableEq

/-- One iteration of the `segment` loop: pop the best phrase; `break` if
its remaining text is empty; otherwise take the non-Sanskrit-prefix branch
(emit one `Pada::None` word up to the next space or the end, rescore,
install into the Viterbi cache unconditionally, push) or the
sandhi-expansion branch (`expandSplits`). -/
def segmentIter (ctx : Segmenter) (st : SearchState) :
    Except String (Sum LoopEnd SearchState) :=
  match pqPop st.pq with
  | Option.none => Except.ok (Sum.inl (LoopEnd.emptyQueue st.viterbi))
  | some ((cur, cur_score), rest) =>
    if cur.remaining.isEmpty then
      Except.ok (Sum.inl (LoopEnd.popped cur st.viterbi))
    else if startsWithNonSanskrit ctx.is_sanskrit cur.remaining then
      let base : Phrase :=
        match splitOnceSpace cur.remaining with
        | some (first, second) =>
          { words := cur.words ++ [{ text := first, semantics := Pada.none }],
            remaining := second, score := cur_score }
        | Option.none =>
          { words := cur.words ++ [{ text := cur.remaining, semantics := Pada.none }],
            remaining := "", score := cur_score }
      let new : Phrase := { base with score := ctx.model.score base }
      let v := vInsert st.viterbi new.remaining new
      Except.ok (Sum.inr { pq := (new, new.score) :: rest,
                           word_cache := st.word_cache, viterbi := v })
    else
      match expandSplits ctx cur cur_score (ctx.split_all cur.remaining)
          (st.word_cache, st.viterbi, rest) with
      | Except.error e => Except.error e
      | Except.ok (wc, v, pq) =>
        Except.ok (Sum.inr { pq := pq, word_cache := wc, viterbi := v })

/-- The `segment` loop, on fuel. -/
def segmentLoop (ctx : Segmenter) : Nat → SearchState → Except String LoopOut
  | 0, st => Except.ok (LoopOut.fuel_out st)
  | Nat.succ fuel, st =>
    match segmentIter ctx st with
    | Except.error e => Except.error e
    | Except.ok (Sum.inl e) => Except.ok (LoopOut.ended e)
    | Except.ok (Sum.inr st') => segmentLoop ctx fuel st'

/-- Embeds `solutions.values().max_by_key(|s| s.score)` on the inner map
of the Viterbi cache. -/
def innerBest : List (String × Phrase) → Option Phrase
  | [] => Option.none
  | (_, p) :: rest =>
    match innerBest rest with
    | Option.none => some p
    | some q => some (if p.score ≥ q.score then p else q)

/-- Embeds the return path of `segment`: the words of the best phrase
stored under the empty-remaining key, else the empty list. -/
def extractResult (v : VCache) : List Word :=
  match List.lookup "" v with
  | some solutions =>
    match innerBest solutions with
    | some best => best.words
    | Option.none => []
  | Option.none => []

/-- The initial search state of `segment`: normalized text, the initial
phrase pushed with its own score (0) as priority, empty caches. -/
def initState (raw_text : String) (ctx : Segmenter) : SearchState :=
  let text := ctx.normalize raw_text
  let initial_state := Phrase.new text
  { pq := [(initial_state, initial_state.score)],
    word_cache := [], viterbi := [] }

/-- Embeds the free function `segment(raw_text, ctx)` of `segmenting.rs`
(on fuel; `Except.ok Option.none` reports fuel exhaustion, an artifact of
the embedding). -/
def segment (raw_text : String) (ctx : Segmenter) (fuel : Nat) :
    Except String (Option (List Word)) :=
  match segmentLoop ctx fuel (initState raw_text ctx) with
  | Except.error e => Except.error e
  | Except.ok (LoopOut.fuel_out _) => Except.ok Option.none
  | Except.ok (LoopOut.ended e) => Except.ok (some (extractResult e.vcache))

/-- Embeds the public method `Segmenter::segment`, which calls the free
function and unwraps with `.expect("Is OK")` — a panic when the inner call
returns an error. -/
inductive PanicOr (α : Type) where
  | panicked (msg : String)
  | ok (a : α)
  deriving DecidableEq

/-- Embeds `Segmenter::segment`: `segment(raw_text, self).expect("Is OK")`. -/
def segmentPublic (ctx : Segmenter) (raw_text : String) (fuel : Nat) :
    PanicOr (Option (List Word)) :=
  match segment raw_text ctx fuel with
  | Except.ok r => PanicOr.ok r
  | Except.error _ => PanicOr.panicked "Is OK"

/-- Embeds `RuleChoice` from `vidyut-prakriya`: accept or decline an
optional rule, identified by its code (opaque; embedded as `Nat`). -/
inductive RuleChoice where
  | accept (code : Nat)
  | decline (code : Nat)
  deriving DecidableEq

/-- The swap performed on the last element of a candidate path in
`add_prakriya`: `Accept(code) ↔ Decline(code)`. -/
def flipChoice : RuleChoice → RuleChoice
  | RuleChoice.accept code => RuleChoice.decline code
  | RuleChoice.decline code => RuleChoice.accept code

/-- Modelled from the spec: the configurable inputs to a fresh derivation,
`{ rule_choices: [RuleChoice], log_steps: bool }` (`prakriya.rs` is not
among the sources). -/
structure Config where
  rule_choices : List RuleChoice
  log_steps : Bool
  deriving DecidableEq

/-- Modelled from the spec: a derivation (`Prakriya`) records the sequence
of rule decisions made while deriving, and is created from a `Config`
whose `rule_choices` pre-commit the decisions to follow
(`prakriya.rs` is not among the sources). -/
structure Prakriya where
  config : Config
  choices : List RuleChoice
  deriving DecidableEq

/-- Modelled from the spec: the accessor `p.rule_choices()` used by
`add_prakriya` — the decisions the derivation recorded. -/
def Prakriya.rule_choices (p : Prakriya) : List RuleChoice :=
  p.choices

/-- Embeds `PrakriyaStack::new_prakriya`: `Prakriya::with_config(Config {
rule_choices, log_steps })`, with no decision recorded yet. -/
def new_prakriya (rule_choices : List RuleChoice) (log_steps : Bool) :
    Prakriya :=
  { config := { rule_choices := rule_choices, log_steps := log_steps },
    choices := [] }

/-- Embeds `PrakriyaStack`: completed derivations and the stack of
candidate choice paths yet to try. -/
structure PrakriyaStack where
  prakriyas : List Prakriya
  paths : List (List RuleChoice)
  deriving DecidableEq

/-- Replacing the last element of a path by its flip — the effect of
`path[i] = match path[i] { Accept(c) => Decline(c), … }` at
`i = path.len() - 1` in `add_prakriya`. -/
def flipLast : List RuleChoice → List RuleChoice
  | [] => []
  | [c] => [flipChoice c]
  | c :: rest => c :: flipLast rest

/-- The list of candidate paths `add_prakriya` pushes for a derivation
that recorded `choices`, given the frozen `initial_choices`: for each
`i` in `offset..choices.len()` (with `offset = initial_choices.len()`),
the prefix `choices[..=i]` with its last element flipped. -/
def add_paths (choices initial_choices : List RuleChoice) :
    List (List RuleChoice) :=
  (List.range' initial_choices.length
      (choices.length - initial_choices.length)).map
    (fun i => flipLast (choices.take (i + 1)))

/-- Embeds `PrakriyaStack::add_prakriya`: push the candidate paths, then
record the completed derivation (`Vec::push` appends). -/
def add_prakriya (st : PrakriyaStack) (p : Prakriya)
    (initial_choices : List RuleChoice) : PrakriyaStack :=
  { prakriyas := st.prakriyas ++ [p],
    paths := st.paths ++ add_paths p.rule_choices initial_choices }

/-- Embeds `PrakriyaStack::pop_path`: `Vec::pop` removes and returns the
last path, if any. -/
def pop_path (st : PrakriyaStack) : Option (List RuleChoice × PrakriyaStack) :=
  match st.paths.getLast? with
  | Option.none => Option.none
  | some path => some (path, { st with paths := st.paths.dropLast })

/-- The `while let Some(path) = self.pop_path()` loop of `find_all`, on
fuel (`Option.none` reports fuel exhaustion). The `derive` argument embeds
the user derivation function: it returns the mutated derivation on
success, or an error (which `find_all` silently discards). -/
def find_all_loop (derive : Prakriya → Except String Prakriya)
    (log_steps : Bool) : Nat → PrakriyaStack → Option PrakriyaStack
  | 0, _ => Option.none
  | Nat.succ fuel, st =>
    match pop_path st with
    | Option.none => some st
    | some (path, st') =>
      match derive (new_prakriya path log_steps) with
      | Except.ok p => find_all_loop derive log_steps fuel
          (add_prakriya st' p path)
      | Except.error _ => find_all_loop derive log_steps fuel st'

/-- Embeds `PrakriyaStack::find_all` followed by `prakriyas()`: run
`derive` on an empty-choices derivation, seed the stack if it succeeded,
then drain the path stack; return all completed derivations. -/
def find_all (derive : Prakriya → Except String Prakriya)
    (log_steps : Bool) (fuel : Nat) : Option (List Prakriya) :=
  let st0 : PrakriyaStack := { prakriyas := [], paths := [] }
  let st1 :=
    match derive (new_prakriya [] log_steps) with
    | Except.ok p_init => add_prakriya st0 p_init []
    | Except.error _ => st0
  (find_all_loop derive log_steps fuel st1).map PrakriyaStack.prakriyas

/-- Modelled from the spec: a derivation function that makes exactly one
optional choice with code `X` and always succeeds. It follows the
derivation's pre-committed `rule_choices` until their end (here: its
single decision is the first pre-committed choice when one is present),
and otherwise takes its own default decision on `X` (`dflt = true` for
accept, `false` for decline). -/
def oneChoiceDerive (X : Nat) (dflt : Bool) (p : Prakriya) :
    Except String Prakriya :=
  let d :=
    match p.config.rule_choices with
    | c :: _ => c
    | [] => if dflt then RuleChoice.accept X else RuleChoice.decline X
  Except.ok { p with choices := p.choices ++ [d] }

/-- Embeds the `Scheme` enum of `vidyut-lipi/src/scheme.rs` (the variant
`Tibetan` is commented out in the source and therefore absent). -/
inductive Scheme where
  | Balinese
  | Bengali
  | Brahmi
  | Burmese
  | Devanagari
  | Gujarati
  | Grantha
  | Gurmukhi
  | Javanese
  | Kannada
  | Malayalam
  | Odia
  | Sharada
  | Siddham
  | Sinhala
  | Tamil
  | Telugu
  | BarahaSouth
  | HarvardKyoto
  | Iast
  | Iso15919
  | Itrans
  | Slp1
  | Velthuis
  | Wx
  deriving DecidableEq, Fintype

/-- Embeds the constant array `SCHEMES` inside `Scheme::iter()`, in source
order; `Scheme::iter()` returns exactly an iterator over this array. -/
def SCHEMES : List Scheme :=
  [Scheme.Balinese,
   Scheme.Bengali,
   Scheme.Brahmi,
   Scheme.Burmese,
   Scheme.Devanagari,
   Scheme.Grantha,
   Scheme.Gujarati,
   Scheme.Gurmukhi,
   Scheme.BarahaSouth,
   Scheme.HarvardKyoto,
   Scheme.Iast,
   Scheme.Itrans,
   Scheme.Javanese,
   Scheme.Kannada,
   Scheme.Malayalam,
   Scheme.Odia,
   Scheme.Sharada,
   Scheme.Siddham,
   Scheme.Sinhala,
   Scheme.Slp1,
   Scheme.Tamil,
   Scheme.Telugu,
   Scheme.Velthuis,
   Scheme.Wx]

/-! ## Concrete segmenter contexts for counterexamples and witnesses -/

/-- A words-only scoring function used by the example context `ctx1`:
the empty phrase scores 0, the single word `"k1"` scores −2, any other
single word scores −1, longer phrases score −3. All scores are monotone
non-increasing under extension, as the spec requires of the model. -/
def scoreW : List Word → Int
  | [] => 0
  | [w] => if w.text = "k1" then -2 else -1
  | _ => -3

/-- A small concrete segmenter context: the sandhi splitter offers for
`"k1"` the full split `("k1", "")` and the partial split `("k", "1")`;
the lexicon knows `"k1"` (handle 0) and `"k"` (handle 1) and unpacking
always succeeds; only `'k'` is a Sanskrit sound; the strict-mode filter
accepts everything. -/
def ctx1 : Segmenter :=
  { split_all := fun s =>
      if s = "k1" then
        [{ first := "k1", second := "", is_end_of_chunk := false, valid := true },
         { first := "k", second := "1", is_end_of_chunk := false, valid := true }]
      else [],
    lexicon :=
      { get_all := fun s => if s = "k1" then [0] else if s = "k" then [1] else [],
        unpack := fun h => Except.ok (Pada.tag h) },
    model := { score := fun p => scoreW p.words },
    is_sanskrit := fun c => c = 'k',
    is_valid_word := fun _ _ _ => true,
    normalize := fun s => s }

/-- The phrase `["k1"]` with empty remaining text and score −2, produced
by the full split in the run of `ctx1` on `"k1"`. -/
def phrA : Phrase :=
  { words := [{ text := "k1", semantics := Pada.tag 0 }],
    remaining := "", score := -2 }

/-- The phrase `["k"]` with remaining `"1"` and score −1, produced by the
partial split in the run of `ctx1` on `"k1"`. -/
def phrC : Phrase :=
  { words := [{ text := "k", semantics := Pada.tag 1 }],
    remaining := "1", score := -1 }

/-- The phrase `["k", "1"]` with empty remaining text and score −3,
produced by the non-Sanskrit-prefix branch from `phrC`. -/
def phrD : Phrase :=
  { words := [{ text := "k", semantics := Pada.tag 1 },
              { text := "1", semantics := Pada.none }],
    remaining := "", score := -3 }

/-- The Viterbi cache at the end of the run of `ctx1` on `"k1"`: the
non-Sanskrit-prefix branch has overwritten the entry at `""` (which held
`phrA`, score −2) with `phrD` (score −3). -/
def vFinal : VCache :=
  [("", [("STATE", phrD)]), ("1", [("STATE", phrC)])]

/-- The search state of the run of `ctx1` on `"k1"` after one loop
iteration: both successors pushed, both installed in the Viterbi cache. -/
def st1ex : SearchState :=
  { pq := [(phrC, -1), (phrA, -2)],
    word_cache := [("k", [Pada.tag 1]), ("k1", [Pada.tag 0])],
    viterbi := [("1", [("STATE", phrC)]), ("", [("STATE", phrA)])] }

/-- Projection: the phrase whose pop ended the loop (the `break`), if the
run ended that way. -/
def poppedPhrase : Except String LoopOut → Option Phrase
  | Except.ok (LoopOut.ended (LoopEnd.popped c _)) => some c
  | _ => Option.none

/-- Projection: the priority queue of an intermediate (fuel-exhausted)
state. -/
def midPq : Except String LoopOut → List (Phrase × Int)
  | Except.ok (LoopOut.fuel_out st) => st.pq
  | _ => []

/-- Projection: the Viterbi cache of an intermediate (fuel-exhausted)
state. -/
def midV : Except String LoopOut → VCache
  | Except.ok (LoopOut.fuel_out st) => st.viterbi
  | _ => []

/-! ## Lemmas about the loop ends -/

/-- A `popped` end of one iteration can only come from the emptiness test
on the popped phrase's remaining text. -/
theorem segmentIter_popped_isEmpty {ctx : Segmenter} {st : SearchState}
    {cur : Phrase} {v : VCache}
    (h : segmentIter ctx st = Except.ok (Sum.inl (LoopEnd.popped cur v))) :
    cur.remaining.isEmpty = true := by
  unfold segmentIter at h
  cases hp : pqPop st.pq with
  | none => rw [hp] at h; simp at h
  | some x =>
    obtain ⟨⟨c, cs⟩, rest⟩ := x
    rw [hp] at h
    by_cases he : c.remaining.isEmpty
    · simp only [he, if_true] at h
      injection h with h1
      injection h1 with h2
      injection h2 with h3 h4
      rw [← h3]
      exact he
    · simp only [he, if_false, Bool.false_eq_true] at h
      by_cases hs : startsWithNonSanskrit ctx.is_sanskrit c.remaining
      · simp only [hs, if_true] at h
        simp at h
      · simp only [hs, if_false, Bool.false_eq_true] at h
        cases hex : expandSplits ctx c cs (ctx.split_all c.remaining)
            (st.word_cache, st.viterbi, rest) with
        | error e => rw [hex] at h; simp at h
        | ok acc => obtain ⟨wc, vv, pq⟩ := acc; rw [hex] at h; simp at h

/-- A `popped` end of the whole loop pops a phrase with empty remaining
text. -/
theorem segmentLoop_popped_isEmpty {ctx : Segmenter} :
    ∀ {fuel : Nat} {st : SearchState} {cur : Phrase} {v : VCache},
    segmentLoop ctx fuel st = Except.ok (LoopOut.ended (LoopEnd.popped cur v)) →
    cur.remaining.isEmpty = true := by
  intro fuel
  induction fuel with
  | zero => intro st cur v h; simp [segmentLoop] at h
  | succ n ih =>
    intro st cur v h
    unfold segmentLoop at h
    cases hi : segmentIter ctx st with
    | error e => rw [hi] at h; simp at h
    | ok o =>
      rw [hi] at h
      cases o with
      | inl e =>
        simp only [Except.ok.injEq, LoopOut.ended.injEq] at h
        rw [h] at hi
        exact segmentIter_popped_isEmpty hi
      | inr st' => exact ih h

/-! ## Claim C1 -/

/-- C1 (counterexample): on the context `ctx1` and input `"k1"`, the
search pops the phrase `phrA` (remaining text empty, words `["k1"]`), but
`segment` returns `phrD.words = ["k", "1"] ≠ phrA.words`. The code does
not return the popped phrase's word list: it breaks out of the loop and
reads the best entry of `V[""]`, which the non-Sanskrit-prefix branch had
meanwhile overwritten — without a dominance check — with the lower-scoring
`phrD`. -/
theorem c1_counterexample :
    poppedPhrase (segmentLoop ctx1 10 (initState "k1" ctx1)) = some phrA ∧
    segment "k1" ctx1 10 = Except.ok (some phrD.words) ∧
    phrD.words ≠ phrA.words :=
  ⟨by decide, rfl, by decide⟩

/-- C1 (amended): if the segmenter's search pops a Phrase whose remaining
text is empty, the loop stops there and `segment` returns the word list
of the best Phrase stored in the Viterbi cache under the key `""` at that
moment (`extractResult`), the empty list when there is no such entry.
This equals the popped phrase's word list unless the non-Sanskrit-prefix
branch overwrote the `""` entry (see `c1_counterexample`). -/
theorem c1_amended (raw : String) (ctx : Segmenter) (fuel : Nat)
    (cur : Phrase) (v : VCache)
    (h : segmentLoop ctx fuel (initState raw ctx) =
      Except.ok (LoopOut.ended (LoopEnd.popped cur v))) :
    segment raw ctx fuel = Except.ok (some (extractResult v)) ∧
    cur.remaining.isEmpty = true := by
  constructor
  · show
      (match segmentLoop ctx fuel (initState raw ctx) with
        | Except.error e => Except.error e
        | Except.ok (LoopOut.fuel_out _) => Except.ok Option.none
        | Except.ok (LoopOut.ended e) => Except.ok (some (extractResult e.vcache))) =
      Except.ok (some (extractResult v))
    rw [h]
    rfl
  · exact segmentLoop_popped_isEmpty h

/-- C1 (witness): the amended theorem applied to the concrete run of
`ctx1` on `"k1"`. -/
theorem c1_witness :
    segmentLoop ctx1 10 (initState "k1" ctx1) =
      Except.ok (LoopOut.ended (LoopEnd.popped phrA vFinal)) ∧
    (segment "k1" ctx1 10 = Except.ok (some (extractResult vFinal)) ∧
      phrA.remaining.isEmpty = true) :=
  ⟨rfl, c1_amended "k1" ctx1 10 phrA vFinal rfl⟩

/-! ## Claim C2 -/

/-- C2 (counterexample): a reachable state of the run of `ctx1` on
`"k1"` in which the Viterbi cache does not hold a maximal-score phrase:
`phrA` (remaining `""`, score −2) has been pushed onto the queue — it is
still in it — while the entry stored for the key `""` is `phrD` with
score −3 < −2. The non-Sanskrit-prefix branch installed `phrD` over
`phrA` without any dominance check. -/
theorem c2_counterexample :
    (phrA, (-2 : Int)) ∈ midPq (segmentLoop ctx1 2 (initState "k1" ctx1)) ∧
    vState (midV (segmentLoop ctx1 2 (initState "k1" ctx1))) "" = some phrD ∧
    phrD.score < phrA.score ∧ phrA.remaining = "" :=
  ⟨by decide, by decide, by decide, rfl⟩

/-- C2 (amended): the dominance check governs the sandhi-expansion branch
only: there, a successor whose (rescored) score is less than or equal to
the score of the existing entry for its remaining text is discarded — the
Viterbi cache and the queue are returned unchanged. (The
non-Sanskrit-prefix branch installs its successor unconditionally and can
overwrite a higher-scoring entry, see `c2_counterexample`.) -/
theorem c2_amended (ctx : Segmenter) (cur : Phrase) (cur_score : Int)
    (split : Split) (sem : Pada) (v : VCache) (pq : List (Phrase × Int))
    (rival : Phrase)
    (hr : vState v split.second = some rival)
    (hge : ctx.model.score (mkSuccessor cur cur_score split sem) ≤ rival.score) :
    tryAdd ctx cur cur_score split (v, pq) sem = (v, pq) := by
  have hsome : (List.lookup split.second v).isSome := by
    unfold vState vLookupInner at hr
    cases hl : List.lookup split.second v with
    | none => rw [hl] at hr; simp at hr
    | some inner => simp
  unfold tryAdd
  by_cases hw : ctx.is_valid_word cur split sem
  · simp only [hw, if_true]
    have hv1 : vEnsure v (rescored ctx cur cur_score split sem).remaining = v := by
      unfold vEnsure rescored mkSuccessor
      simp only [hsome, if_true]
    rw [hv1]
    have hrr : vState v (rescored ctx cur cur_score split sem).remaining = some rival := by
      unfold rescored mkSuccessor
      exact hr
    rw [hrr]
    have hsc : rival.score ≥ (rescored ctx cur cur_score split sem).score := by
      unfold rescored
      exact hge
    simp only [hsc, if_true]
  · simp [hw]

/-- C2 (witness): the amended dominance behaviour at a concrete input —
an equal-score challenger for the key `""` (incumbent `phrA`) is dropped
and the cache and the queue are unchanged. -/
theorem c2_witness :
    vState [("", [("STATE", phrA)])] "" = some phrA ∧
    ctx1.model.score
        (mkSuccessor (Phrase.new "k1") 0
          { first := "k1", second := "", is_end_of_chunk := false, valid := true }
          (Pada.tag 0)) ≤ phrA.score ∧
    tryAdd ctx1 (Phrase.new "k1") 0
        { first := "k1", second := "", is_end_of_chunk := false, valid := true }
        ([("", [("STATE", phrA)])], []) (Pada.tag 0) =
      ([("", [("STATE", phrA)])], []) :=
  ⟨by decide, by decide,
    c2_amended ctx1 (Phrase.new "k1") 0
      { first := "k1", second := "", is_end_of_chunk := false, valid := true }
      (Pada.tag 0) [("", [("STATE", phrA)])] [] phrA (by decide) (by decide)⟩

/-! ## Claim C10 -/

/-- C10: the `SCHEMES` array behind `Scheme::iter()` omits the variant
`Iso15919` entirely, although `iter()`'s documentation (and the claim)
guarantee that every pre-defined scheme is present exactly once; every
other variant does appear exactly once. The code contradicts its own
doc comment — a code bug. -/
theorem c10_iter_omits_iso15919 :
    Scheme.Iso15919 ∉ SCHEMES ∧
    (∀ s : Scheme, s ≠ Scheme.Iso15919 → SCHEMES.count s = 1) := by
  decide

/-! ## Claim C3 -/

/-- A context whose lexicon always fails to unpack: `get_all "k"` returns
one handle and `unpack` errors with `"bad"`. -/
def ctx3 : Segmenter :=
  { split_all := fun s =>
      if s = "k" then
        [{ first := "k", second := "", is_end_of_chunk := false, valid := true }]
      else [],
    lexicon :=
      { get_all := fun s => if s = "k" then [0] else [],
        unpack := fun _ => Except.error "bad" },
    model := { score := fun p => scoreW p.words },
    is_sanskrit := fun c => c = 'k',
    is_valid_word := fun _ _ _ => true,
    normalize := fun s => s }

/-- C3 (counterexample): when the lexicon returns a handle that fails to
unpack, the free function `segment` does return the error — but the
public `Segmenter::segment` unwraps it with `.expect("Is OK")` and
panics, contradicting the claim that the failure reaches the caller as an
error and that segment does not panic. -/
theorem c3_counterexample :
    segment "k" ctx3 5 = Except.error "bad" ∧
    segmentPublic ctx3 "k" 5 = PanicOr.panicked "Is OK" :=
  ⟨rfl, rfl⟩

/-- C3 (amended): a failing unpack on a cache miss makes `analyze_pada`
(and hence the inner `segment`) return the error, aborting the call; the
public `Segmenter::segment` however unwraps with `.expect`, so it panics
exactly when the inner function errs and returns normally exactly when it
succeeds. -/
theorem c3_amended (raw text : String) (ctx : Segmenter) (fuel : Nat)
    (split : Split) (cache : List (String × List Pada)) (e : String)
    (r : Option (List Word)) :
    (segment raw ctx fuel = Except.error e →
      segmentPublic ctx raw fuel = PanicOr.panicked "Is OK") ∧
    (segment raw ctx fuel = Except.ok r →
      segmentPublic ctx raw fuel = PanicOr.ok r) ∧
    (List.lookup text cache = Option.none →
      (ctx.lexicon.get_all text).mapM ctx.lexicon.unpack = Except.error e →
      analyze_pada text split ctx cache = Except.error e) := by
  refine ⟨?_, ?_, ?_⟩
  · intro h
    unfold segmentPublic
    rw [h]
  · intro h
    unfold segmentPublic
    rw [h]
  · intro hnone herr
    unfold analyze_pada
    rw [hnone, herr]
    rfl

/-- C3 (witness): the amended theorem applied to the failing-lexicon
context `ctx3`. -/
theorem c3_witness :
    segment "k" ctx3 5 = Except.error "bad" ∧
    segmentPublic ctx3 "k" 5 = PanicOr.panicked "Is OK" ∧
    analyze_pada "k"
        { first := "k", second := "", is_end_of_chunk := false, valid := true }
        ctx3 [] = Except.error "bad" :=
  ⟨rfl,
   (c3_amended "k" "k" ctx3 5
      { first := "k", second := "", is_end_of_chunk := false, valid := true }
      [] "bad" Option.none).1 rfl,
   (c3_amended "k" "k" ctx3 5
      { first := "k", second := "", is_end_of_chunk := false, valid := true }
      [] "bad" Option.none).2.2 rfl rfl⟩

/-! ## Claim C4 -/

/-- Flipping the last element of `l.take (i+1)` keeps the first `i`
elements and flips the element at index `i`. -/
theorem flipLast_take :
    ∀ (l : List RuleChoice) (i : Nat), i < l.length →
    flipLast (l.take (i + 1)) =
      l.take i ++ [flipChoice (l.getD i (RuleChoice.accept 0))]
  | [], i, h => absurd h (by simp)
  | c :: rest, 0, _ => by simp [flipLast]
  | c :: rest, Nat.succ j, h => by
    have hj : j < rest.length := Nat.lt_of_succ_lt_succ (by simpa using h)
    cases rest with
    | nil => exact absurd hj (by simp)
    | cons d t =>
      have hstep :
          flipLast ((c :: d :: t).take (j + 1 + 1)) =
            c :: flipLast ((d :: t).take (j + 1)) := by
        rfl
      rw [hstep, flipLast_take (d :: t) j hj]
      rfl

/-- C4: the paths `add_prakriya` pushes for a derivation that recorded
`choices` with frozen initial prefix `init` are exactly, in order, the
paths `choices[0..i] ++ [flip choices[i]]` for each index
`i ∈ [init.length, choices.length)` — one per index beyond the frozen
prefix, discarding everything after the flipped choice; and (when the
derivation did follow `init`, i.e. `init` is the prefix of `choices`)
every pushed path has `init` as a strict prefix. -/
theorem c4_add_paths (choices init : List RuleChoice)
    (h : choices.take init.length = init) :
    add_paths choices init =
      (List.range' init.length (choices.length - init.length)).map
        (fun i => choices.take i ++ [flipChoice (choices.getD i (RuleChoice.accept 0))]) ∧
    ∀ p ∈ add_paths choices init,
      p.take init.length = init ∧ init.length < p.length := by
  have hmain : add_paths choices init =
      (List.range' init.length (choices.length - init.length)).map
        (fun i => choices.take i ++ [flipChoice (choices.getD i (RuleChoice.accept 0))]) := by
    unfold add_paths
    apply List.map_congr_left
    intro i hi
    rw [List.mem_range'_1] at hi
    have hik : i < choices.length := by
      have h2 := hi.2
      have hle : init.length ≤ choices.length := by
        by_contra hgt
        push_neg at hgt
        have hz : choices.length - init.length = 0 := Nat.sub_eq_zero_of_le (Nat.le_of_lt hgt)
        rw [hz] at h2
        have h2' : i < init.length := by simpa using h2
        exact Nat.lt_irrefl _ (Nat.lt_of_le_of_lt hi.1 h2')
      rwa [Nat.add_sub_cancel' hle] at h2
    exact flipLast_take choices i hik
  refine ⟨hmain, ?_⟩
  intro p hp
  rw [hmain] at hp
  rw [List.mem_map] at hp
  obtain ⟨i, hi, hpi⟩ := hp
  rw [List.mem_range'_1] at hi
  have hmi : init.length ≤ i := hi.1
  have hik : i < choices.length := by
    have h2 := hi.2
    have hle : init.length ≤ choices.length := by
      by_contra hgt
      push_neg at hgt
      have hz : choices.length - init.length = 0 := Nat.sub_eq_zero_of_le (Nat.le_of_lt hgt)
      rw [hz] at h2
      have h2' : i < init.length := by simpa using h2
      exact Nat.lt_irrefl _ (Nat.lt_of_le_of_lt hi.1 h2')
    rwa [Nat.add_sub_cancel' hle] at h2
  have hlen : (choices.take i).length = i := by
    rw [List.length_take]
    exact Nat.min_eq_left (Nat.le_of_lt hik)
  constructor
  · rw [← hpi]
    rw [List.take_append_of_le_length (by rw [hlen]; exact hmi)]
    rw [List.take_take]
    rw [Nat.min_eq_left hmi]
    exact h
  · rw [← hpi]
    rw [List.length_append, hlen]
    simp only [List.length_singleton]
    exact Nat.lt_succ_of_le hmi

/-- C4 (witness): the theorem applied to a concrete completed derivation
`[Accept 1, Accept 2]` with empty frozen prefix: the pushed paths are
`[Decline 1]` and `[Accept 1, Decline 2]`, each having `[]` as a strict
prefix. -/
theorem c4_witness :
    [RuleChoice.accept 1, RuleChoice.accept 2].take 0 = ([] : List RuleChoice) ∧
    ([RuleChoice.decline 1].take 0 = ([] : List RuleChoice) ∧
      0 < [RuleChoice.decline 1].length) :=
  ⟨rfl,
   (c4_add_paths [RuleChoice.accept 1, RuleChoice.accept 2] [] rfl).2
     [RuleChoice.decline 1] (by decide)⟩

/-! ## Claim C6 -/

/-- C6: `find_all` on a derivation function that makes exactly one
optional choice with code `X` and always succeeds (whatever its own
default decision `dflt` and whatever `log_steps`) produces exactly two
derivations: one whose recorded choice sequence is `[Accept X]` and one
whose sequence is `[Decline X]`. -/
theorem c6_find_all_one_choice (X : Nat) (dflt log_steps : Bool) :
    (find_all (oneChoiceDerive X dflt) log_steps 3).map
        (List.map Prakriya.rule_choices) =
      some (if dflt then [[RuleChoice.accept X], [RuleChoice.decline X]]
            else [[RuleChoice.decline X], [RuleChoice.accept X]]) := by
  cases dflt <;> rfl

/-! ## Claim C7 -/

/-- C7: when the loop's priority queue empties without a pop of a phrase
with empty remaining text (the `emptyQueue` end), `segment` returns — as
a successful, non-error result — `extractResult v`: the word list of the
best Phrase stored under the key `""` of the Viterbi cache when that key
holds an entry, and the empty word list otherwise. -/
theorem c7_empty_queue (raw : String) (ctx : Segmenter) (fuel : Nat)
    (v : VCache)
    (h : segmentLoop ctx fuel (initState raw ctx) =
      Except.ok (LoopOut.ended (LoopEnd.emptyQueue v))) :
    segment raw ctx fuel = Except.ok (some (extractResult v)) ∧
    (List.lookup "" v = Option.none → extractResult v = []) ∧
    (∀ inner b, List.lookup "" v = some inner → innerBest inner = some b →
      extractResult v = b.words) := by
  refine ⟨?_, ?_, ?_⟩
  · show
      (match segmentLoop ctx fuel (initState raw ctx) with
        | Except.error e => Except.error e
        | Except.ok (LoopOut.fuel_out _) => Except.ok Option.none
        | Except.ok (LoopOut.ended e) => Except.ok (some (extractResult e.vcache))) =
      Except.ok (some (extractResult v))
    rw [h]
    rfl
  · intro hn
    unfold extractResult
    rw [hn]
  · intro inner b h1 h2
    unfold extractResult
    rw [h1]
    show
      (match innerBest inner with
        | some best => best.words
        | Option.none => []) = b.words
    rw [h2]

/-- A context whose sandhi splitter offers no splits at all: the search
exhausts its queue without reaching end of input. -/
def ctx7 : Segmenter :=
  { split_all := fun _ => [],
    lexicon := { get_all := fun _ => [], unpack := fun _ => Except.ok Pada.none },
    model := { score := fun p => scoreW p.words },
    is_sanskrit := fun _ => true,
    is_valid_word := fun _ _ _ => true,
    normalize := fun s => s }

/-- C7 (witness): on `ctx7` and input `"k"` the queue empties with an
empty Viterbi cache, and `segment` returns the empty word list as a
successful result. -/
theorem c7_witness :
    segmentLoop ctx7 5 (initState "k" ctx7) =
      Except.ok (LoopOut.ended (LoopEnd.emptyQueue [])) ∧
    segment "k" ctx7 5 = Except.ok (some (extractResult [])) ∧
    extractResult ([] : VCache) = [] :=
  ⟨rfl, (c7_empty_queue "k" ctx7 5 [] rfl).1,
   (c7_empty_queue "k" ctx7 5 [] rfl).2.1 rfl⟩

/-! ## Queue membership lemmas -/

/-- The pair returned by `pqPop` was in the queue. -/
theorem pqPop_mem :
    ∀ {q : List (Phrase × Int)} {x : Phrase × Int} {rest : List (Phrase × Int)},
    pqPop q = some (x, rest) → x ∈ q := by
  intro q
  induction q with
  | nil => intro x rest h; simp [pqPop] at h
  | cons a as ih =>
    intro x rest h
    unfold pqPop at h
    cases hp : pqPop as with
    | none =>
      rw [hp] at h
      simp only [Option.some.injEq, Prod.mk.injEq] at h
      rw [← h.1]
      exact List.mem_cons_self a as
    | some yr =>
      obtain ⟨y, r⟩ := yr
      rw [hp] at h
      by_cases hge : a.2 ≥ y.2
      · simp only [hge, if_true, Option.some.injEq, Prod.mk.injEq] at h
        rw [← h.1]
        exact List.mem_cons_self a as
      · simp only [hge, if_false, Option.some.injEq, Prod.mk.injEq] at h
        rw [← h.1]
        exact List.mem_cons_of_mem a (ih hp)

/-- Every pair left in the queue after a `pqPop` was in the queue. -/
theorem pqPop_rest_mem :
    ∀ {q : List (Phrase × Int)} {x : Phrase × Int} {rest : List (Phrase × Int)},
    pqPop q = some (x, rest) → ∀ y ∈ rest, y ∈ q := by
  intro q
  induction q with
  | nil => intro x rest h; simp [pqPop] at h
  | cons a as ih =>
    intro x rest h y hy
    unfold pqPop at h
    cases hp : pqPop as with
    | none =>
      rw [hp] at h
      simp only [Option.some.injEq, Prod.mk.injEq] at h
      rw [← h.2] at hy
      simp at hy
    | some yr =>
      obtain ⟨y0, r⟩ := yr
      rw [hp] at h
      by_cases hge : a.2 ≥ y0.2
      · simp only [hge, if_true, Option.some.injEq, Prod.mk.injEq] at h
        rw [← h.2] at hy
        exact List.mem_cons_of_mem a hy
      · simp only [hge, if_false, Option.some.injEq, Prod.mk.injEq] at h
        rw [← h.2] at hy
        rcases List.mem_cons.mp hy with hya | hyr
        · rw [hya]; exact List.mem_cons_self a as
        · exact List.mem_cons_of_mem a (ih hp y hyr)

/-- Everything `tryAdd` leaves in the queue was already there, or is the
rescored successor for this split and analysis, pushed with its own score
as priority. -/
theorem tryAdd_mem {ctx : Segmenter} {cur : Phrase} {cur_score : Int}
    {split : Split} {sem : Pada} {acc : VCache × List (Phrase × Int)}
    {y : Phrase × Int}
    (hy : y ∈ (tryAdd ctx cur cur_score split acc sem).2) :
    y ∈ acc.2 ∨
      y = (rescored ctx cur cur_score split sem,
           (rescored ctx cur cur_score split sem).score) := by
  unfold tryAdd at hy
  by_cases hw : ctx.is_valid_word cur split sem
  · simp only [hw, if_true] at hy
    cases hr : vState (vEnsure acc.1 (rescored ctx cur cur_score split sem).remaining)
        (rescored ctx cur cur_score split sem).remaining with
    | some rival =>
      rw [hr] at hy
      by_cases hge : rival.score ≥ (rescored ctx cur cur_score split sem).score
      · simp only [hge, if_true] at hy
        exact Or.inl hy
      · simp only [hge, if_false] at hy
        rcases List.mem_cons.mp hy with h1 | h1
        · exact Or.inr h1
        · exact Or.inl h1
    | none =>
      rw [hr] at hy
      rcases List.mem_cons.mp hy with h1 | h1
      · exact Or.inr h1
      · exact Or.inl h1
  · simp only [hw, if_false] at hy
    exact Or.inl hy

/-- Everything the fold of `tryAdd` over the cached analyses leaves in the
queue was already there, or is the rescored successor for one of them. -/
theorem semsFold_mem {ctx : Segmenter} {cur : Phrase} {cur_score : Int}
    {split : Split} :
    ∀ (sems : List Pada) (vp : VCache × List (Phrase × Int)) {y : Phrase × Int},
    y ∈ (sems.foldl (tryAdd ctx cur cur_score split) vp).2 →
    y ∈ vp.2 ∨ ∃ sem ∈ sems,
      y = (rescored ctx cur cur_score split sem,
           (rescored ctx cur cur_score split sem).score) := by
  intro sems
  induction sems with
  | nil => intro vp y hy; exact Or.inl hy
  | cons s ss ih =>
    intro vp y hy
    rw [List.foldl_cons] at hy
    rcases ih (tryAdd ctx cur cur_score split vp s) hy with h1 | ⟨sem, hsem, hsy⟩
    · rcases tryAdd_mem h1 with h2 | h2
      · exact Or.inl h2
      · exact Or.inr ⟨s, List.mem_cons_self s ss, h2⟩
    · exact Or.inr ⟨sem, List.mem_cons_of_mem s hsem, hsy⟩

/-- Everything `processSplit` leaves in the queue was already there, or
comes from this split — which then passed the validity test and the
recursion test. -/
theorem processSplit_mem {ctx : Segmenter} {cur : Phrase} {cur_score : Int}
    {sp : Split}
    {acc out : List (String × List Pada) × VCache × List (Phrase × Int)}
    {y : Phrase × Int}
    (h : processSplit ctx cur cur_score sp acc = Except.ok out)
    (hy : y ∈ out.2.2) :
    y ∈ acc.2.2 ∨
      (sp.is_valid = true ∧ sp.is_recursive cur.remaining = false ∧
        ∃ sem, y = (rescored ctx cur cur_score sp sem,
                    (rescored ctx cur cur_score sp sem).score)) := by
  unfold processSplit at h
  by_cases hc : sp.is_valid && !(sp.is_recursive cur.remaining)
  · simp only [hc, if_true] at h
    cases ha : analyze_pada sp.first sp ctx acc.1 with
    | error e => rw [ha] at h; simp at h
    | ok wc =>
      rw [ha] at h
      simp only [Except.ok.injEq] at h
      rw [← h] at hy
      rcases semsFold_mem ((List.lookup sp.first wc).getD []) (acc.2.1, acc.2.2) hy with
        h1 | ⟨sem, _, hsy⟩
      · exact Or.inl h1
      · rw [Bool.and_eq_true] at hc
        exact Or.inr ⟨hc.1, by simpa using hc.2, sem, hsy⟩
  · rw [if_neg hc] at h
    simp only [Except.ok.injEq] at h
    rw [← h] at hy
    exact Or.inl hy

/-- Everything `expandSplits` leaves in the queue was already there, or
comes from one of the splits, which then passed the validity test and the
recursion test. -/
theorem expandSplits_mem {ctx : Segmenter} {cur : Phrase} {cur_score : Int} :
    ∀ (splits : List Split)
      (acc out : List (String × List Pada) × VCache × List (Phrase × Int)),
    expandSplits ctx cur cur_score splits acc = Except.ok out →
    ∀ {y : Phrase × Int}, y ∈ out.2.2 →
    y ∈ acc.2.2 ∨
      ∃ sp ∈ splits, sp.is_valid = true ∧ sp.is_recursive cur.remaining = false ∧
        ∃ sem, y = (rescored ctx cur cur_score sp sem,
                    (rescored ctx cur cur_score sp sem).score) := by
  intro splits
  induction splits with
  | nil =>
    intro acc out h y hy
    unfold expandSplits at h
    simp only [Except.ok.injEq] at h
    rw [← h] at hy
    exact Or.inl hy
  | cons sp rest ih =>
    intro acc out h y hy
    unfold expandSplits at h
    cases hps : processSplit ctx cur cur_score sp acc with
    | error e => rw [hps] at h; simp at h
    | ok acc' =>
      rw [hps] at h
      rcases ih acc' out h hy with h1 | ⟨sp', hsp', hcond⟩
      · rcases processSplit_mem hps h1 with h2 | ⟨hv, hr, sem, hsy⟩
        · exact Or.inl h2
        · exact Or.inr ⟨sp, List.mem_cons_self sp rest, hv, hr, sem, hsy⟩
      · exact Or.inr ⟨sp', List.mem_cons_of_mem sp hsp', hcond⟩

/-! ## Claim C8 -/

/-- C8: during the sandhi expansion of a popped phrase `cur`, no
recursive split — one whose `second` equals `cur.remaining` — ever
produces an enqueued successor: every phrase the expansion adds to the
queue comes from a split that passed the `is_valid`/`is_recursive` guard,
its remaining text is that split's `second`, and it therefore differs
from `cur.remaining`. -/
theorem c8_no_recursive_enqueued (ctx : Segmenter) (cur : Phrase)
    (cur_score : Int) (splits : List Split)
    (acc out : List (String × List Pada) × VCache × List (Phrase × Int))
    (h : expandSplits ctx cur cur_score splits acc = Except.ok out)
    (p : Phrase) (pr : Int) (hy : (p, pr) ∈ out.2.2) :
    (p, pr) ∈ acc.2.2 ∨
      ((∃ sp ∈ splits, sp.is_valid = true ∧
          sp.is_recursive cur.remaining = false ∧ p.remaining = sp.second) ∧
        p.remaining ≠ cur.remaining) := by
  rcases expandSplits_mem splits acc out h hy with h1 | ⟨sp, hsp, hv, hr, sem, hsy⟩
  · exact Or.inl h1
  · have hprem : p.remaining = sp.second := by
      have := congrArg (fun z => z.1.remaining) hsy
      simpa [rescored, mkSuccessor] using this
    have hne : sp.second ≠ cur.remaining := by
      intro hcontra
      unfold Split.is_recursive at hr
      rw [hcontra] at hr
      simp at hr
    exact Or.inr ⟨⟨sp, hsp, hv, hr, hprem⟩, by rw [hprem]; exact hne⟩

/-- C8 (witness): the theorem applied to the concrete expansion performed
by `ctx1` on the initial phrase of `"k1"`: the successor `phrA` is in the
produced queue and its remaining text differs from `"k1"`. -/
theorem c8_witness :
    expandSplits ctx1 (Phrase.new "k1") 0 (ctx1.split_all "k1")
        ([], [], []) =
      Except.ok ([("k", [Pada.tag 1]), ("k1", [Pada.tag 0])],
        [("1", [("STATE", phrC)]), ("", [("STATE", phrA)])],
        [(phrC, -1), (phrA, -2)]) ∧
    ((phrA, (-2 : Int)) ∈ ([] : List (Phrase × Int)) ∨
      ((∃ sp ∈ ctx1.split_all "k1", sp.is_valid = true ∧
          sp.is_recursive (Phrase.new "k1").remaining = false ∧
          phrA.remaining = sp.second) ∧
        phrA.remaining ≠ (Phrase.new "k1").remaining)) :=
  ⟨rfl,
   c8_no_recursive_enqueued ctx1 (Phrase.new "k1") 0 (ctx1.split_all "k1")
     ([], [], [])
     ([("k", [Pada.tag 1]), ("k1", [Pada.tag 0])],
       [("1", [("STATE", phrC)]), ("", [("STATE", phrA)])],
       [(phrC, -1), (phrA, -2)])
     rfl phrA (-2) (by decide)⟩

/-! ## Claim C5 -/

/-- The queue invariant behind C5: every queued pair carries as priority
exactly the phrase's stored score, and that stored score is the model's
score of the phrase. -/
def QInv (ctx : Segmenter) (q : List (Phrase × Int)) : Prop :=
  ∀ x ∈ q, x.2 = x.1.score ∧ x.1.score = ctx.model.score x.1

/-- For a model whose score depends only on the word list (as the spec's
log-linear model does), overwriting a phrase's score field does not change
its model score. -/
theorem score_set_score
    {ctx : Segmenter}
    (hm : ∀ a b : Phrase, a.words = b.words → ctx.model.score a = ctx.model.score b)
    (b : Phrase) (s : Int) :
    ctx.model.score { b with score := s } = ctx.model.score b :=
  hm { b with score := s } b rfl

/-- The rescored successor satisfies the invariant's score equation. -/
theorem rescored_score_eq
    {ctx : Segmenter}
    (hm : ∀ a b : Phrase, a.words = b.words → ctx.model.score a = ctx.model.score b)
    (cur : Phrase) (cur_score : Int) (split : Split) (sem : Pada) :
    (rescored ctx cur cur_score split sem).score =
      ctx.model.score (rescored ctx cur cur_score split sem) := by
  unfold rescored
  exact (score_set_score hm (mkSuccessor cur cur_score split sem) _).symm

/-- One loop iteration preserves the queue invariant. -/
theorem segmentIter_QInv {ctx : Segmenter} {st st' : SearchState}
    (hm : ∀ a b : Phrase, a.words = b.words → ctx.model.score a = ctx.model.score b)
    (h : segmentIter ctx st = Except.ok (Sum.inr st'))
    (hq : QInv ctx st.pq) : QInv ctx st'.pq := by
  unfold segmentIter at h
  cases hp : pqPop st.pq with
  | none => rw [hp] at h; simp at h
  | some x =>
    obtain ⟨⟨cur, cur_score⟩, rest⟩ := x
    rw [hp] at h
    by_cases he : cur.remaining.isEmpty
    · simp only [he, if_true] at h
      simp at h
    · simp only [he, if_false, Bool.false_eq_true] at h
      by_cases hs : startsWithNonSanskrit ctx.is_sanskrit cur.remaining
      · simp only [hs, if_true, Except.ok.injEq, Sum.inr.injEq] at h
        intro y hy
        rw [← h] at hy
        rcases List.mem_cons.mp hy with h1 | h1
        · rw [h1]
          refine ⟨rfl, ?_⟩
          exact (score_set_score hm _ _).symm
        · exact hq y (pqPop_rest_mem hp y h1)
      · simp only [hs, if_false, Bool.false_eq_true] at h
        cases hex : expandSplits ctx cur cur_score (ctx.split_all cur.remaining)
            (st.word_cache, st.viterbi, rest) with
        | error e => rw [hex] at h; simp at h
        | ok acc =>
          obtain ⟨wc, v, pq⟩ := acc
          rw [hex] at h
          simp only [Except.ok.injEq, Sum.inr.injEq] at h
          intro y hy
          rw [← h] at hy
          rcases expandSplits_mem (ctx.split_all cur.remaining)
              (st.word_cache, st.viterbi, rest) (wc, v, pq) hex hy with
            h1 | ⟨sp, _, _, _, sem, hsy⟩
          · exact hq y (pqPop_rest_mem hp y h1)
          · rw [hsy]
            exact ⟨rfl, rescored_score_eq hm cur cur_score sp sem⟩

/-- The loop preserves the queue invariant up to any intermediate state. -/
theorem segmentLoop_QInv {ctx : Segmenter}
    (hm : ∀ a b : Phrase, a.words = b.words → ctx.model.score a = ctx.model.score b) :
    ∀ {fuel : Nat} {st st' : SearchState},
    segmentLoop ctx fuel st = Except.ok (LoopOut.fuel_out st') →
    QInv ctx st.pq → QInv ctx st'.pq := by
  intro fuel
  induction fuel with
  | zero =>
    intro st st' h hq
    unfold segmentLoop at h
    simp only [Except.ok.injEq, LoopOut.fuel_out.injEq] at h
    rw [← h]
    exact hq
  | succ n ih =>
    intro st st' h hq
    unfold segmentLoop at h
    cases hi : segmentIter ctx st with
    | error e => rw [hi] at h; simp at h
    | ok o =>
      rw [hi] at h
      cases o with
      | inl e => simp at h
      | inr st1 => exact ih h (segmentIter_QInv hm hi hq)

/-- C5: provided the model scores phrases by their word lists alone (the
spec's log-linear model) and gives the initial empty phrase score 0 (the
`log_10(1) = 0` convention of `Phrase::new`), every phrase popped from
the priority queue in any reachable state of a `segment` call has its
stored score equal to the model's score of the phrase, and the priority
under which it was pushed equals that stored score. (The interim copy of
the popped `cur_score` into a successor is unconditionally overwritten by
the model rescore before the successor is enqueued.) -/
theorem c5_popped_score (ctx : Segmenter) (raw : String) (fuel : Nat)
    (st : SearchState) (p : Phrase) (pr : Int) (rest : List (Phrase × Int))
    (hm : ∀ a b : Phrase, a.words = b.words → ctx.model.score a = ctx.model.score b)
    (h0 : ctx.model.score (Phrase.new (ctx.normalize raw)) = 0)
    (hreach : segmentLoop ctx fuel (initState raw ctx) =
      Except.ok (LoopOut.fuel_out st))
    (hpop : pqPop st.pq = some ((p, pr), rest)) :
    p.score = ctx.model.score p ∧ pr = p.score := by
  have hq0 : QInv ctx (initState raw ctx).pq := by
    intro x hx
    have hx' : x = (Phrase.new (ctx.normalize raw),
        (Phrase.new (ctx.normalize raw)).score) := by
      simpa [initState] using hx
    rw [hx']
    exact ⟨rfl, h0.symm⟩
  have hq := segmentLoop_QInv hm hreach hq0
  have hx := hq _ (pqPop_mem hpop)
  exact ⟨hx.2, hx.1⟩

/-- C5 (witness): the theorem applied to the reachable state `st1ex` of
the run of `ctx1` on `"k1"`: the popped phrase `phrC` satisfies
`score = model.score` and was queued under priority −1 = its score. -/
theorem c5_witness :
    pqPop st1ex.pq = some ((phrC, -1), [(phrA, -2)]) ∧
    (phrC.score = ctx1.model.score phrC ∧ (-1 : Int) = phrC.score) :=
  ⟨by decide,
   c5_popped_score ctx1 "k1" 1 st1ex phrC (-1) [(phrA, -2)]
     (fun a b hab => congrArg scoreW hab)
     (by decide) rfl (by decide)⟩

/-! ## Claim C9 -/

/-- `analyze_pada` never disturbs an entry already stored in the word
cache. -/
theorem analyze_pada_preserves {text : String} {sp : Split}
    {ctx : Segmenter} {cache cache' : List (String × List Pada)}
    {t : String} {l : List Pada}
    (h : analyze_pada text sp ctx cache = Except.ok cache')
    (hl : List.lookup t cache = some l) :
    List.lookup t cache' = some l := by
  unfold analyze_pada at h
  by_cases hsome : (List.lookup text cache).isSome
  · rw [if_pos hsome] at h
    simp only [Except.ok.injEq] at h
    rw [← h]
    exact hl
  · rw [if_neg hsome] at h
    cases hmap : (ctx.lexicon.get_all text).mapM ctx.lexicon.unpack with
    | error e => rw [hmap] at h; simp at h
    | ok res =>
      rw [hmap] at h
      simp only [Except.ok.injEq] at h
      rw [← h]
      have hne : (t == text) = false := by
        rw [beq_eq_false_iff_ne]
        intro hEq
        rw [hEq] at hl
        rw [hl] at hsome
        simp at hsome
      simp only [List.lookup_cons, hne]
      exact hl

/-- `processSplit` never disturbs an entry already stored in the word
cache. -/
theorem processSplit_wc {ctx : Segmenter} {cur : Phrase} {cur_score : Int}
    {sp : Split}
    {acc out : List (String × List Pada) × VCache × List (Phrase × Int)}
    {t : String} {l : List Pada}
    (h : processSplit ctx cur cur_score sp acc = Except.ok out)
    (hl : List.lookup t acc.1 = some l) :
    List.lookup t out.1 = some l := by
  unfold processSplit at h
  by_cases hc : sp.is_valid && !(sp.is_recursive cur.remaining)
  · rw [if_pos hc] at h
    cases ha : analyze_pada sp.first sp ctx acc.1 with
    | error e => rw [ha] at h; simp at h
    | ok wc =>
      rw [ha] at h
      simp only [Except.ok.injEq] at h
      rw [← h]
      exact analyze_pada_preserves ha hl
  · rw [if_neg hc] at h
    simp only [Except.ok.injEq] at h
    rw [← h]
    exact hl

/-- `expandSplits` never disturbs an entry already stored in the word
cache. -/
theorem expandSplits_wc {ctx : Segmenter} {cur : Phrase} {cur_score : Int} :
    ∀ (splits : List Split)
      (acc out : List (String × List Pada) × VCache × List (Phrase × Int)),
    expandSplits ctx cur cur_score splits acc = Except.ok out →
    ∀ {t : String} {l : List Pada}, List.lookup t acc.1 = some l →
    List.lookup t out.1 = some l := by
  intro splits
  induction splits with
  | nil =>
    intro acc out h t l hl
    unfold expandSplits at h
    simp only [Except.ok.injEq] at h
    rw [← h]
    exact hl
  | cons sp rest ih =>
    intro acc out h t l hl
    unfold expandSplits at h
    cases hps : processSplit ctx cur cur_score sp acc with
    | error e => rw [hps] at h; simp at h
    | ok acc' =>
      rw [hps] at h
      exact ih acc' out h (processSplit_wc hps hl)

/-- One loop iteration never disturbs an entry already stored in the word
cache. -/
theorem segmentIter_wc {ctx : Segmenter} {st st' : SearchState}
    (h : segmentIter ctx st = Except.ok (Sum.inr st'))
    {t : String} {l : List Pada}
    (hl : List.lookup t st.word_cache = some l) :
    List.lookup t st'.word_cache = some l := by
  unfold segmentIter at h
  cases hp : pqPop st.pq with
  | none => rw [hp] at h; simp at h
  | some x =>
    obtain ⟨⟨cur, cur_score⟩, rest⟩ := x
    rw [hp] at h
    by_cases he : cur.remaining.isEmpty
    · simp only [he, if_true] at h
      simp at h
    · simp only [he, if_false, Bool.false_eq_true] at h
      by_cases hs : startsWithNonSanskrit ctx.is_sanskrit cur.remaining
      · simp only [hs, if_true, Except.ok.injEq, Sum.inr.injEq] at h
        rw [← h]
        exact hl
      · simp only [hs, if_false, Bool.false_eq_true] at h
        cases hex : expandSplits ctx cur cur_score (ctx.split_all cur.remaining)
            (st.word_cache, st.viterbi, rest) with
        | error e => rw [hex] at h; simp at h
        | ok acc =>
          obtain ⟨wc, v, pq⟩ := acc
          rw [hex] at h
          simp only [Except.ok.injEq, Sum.inr.injEq] at h
          rw [← h]
          exact expandSplits_wc (ctx.split_all cur.remaining)
            (st.word_cache, st.viterbi, rest) (wc, v, pq) hex hl

/-- The whole loop never disturbs an entry already stored in the word
cache. -/
theorem segmentLoop_wc {ctx : Segmenter} :
    ∀ {fuel : Nat} {st st' : SearchState},
    segmentLoop ctx fuel st = Except.ok (LoopOut.fuel_out st') →
    ∀ {t : String} {l : List Pada}, List.lookup t st.word_cache = some l →
    List.lookup t st'.word_cache = some l := by
  intro fuel
  induction fuel with
  | zero =>
    intro st st' h t l hl
    unfold segmentLoop at h
    simp only [Except.ok.injEq, LoopOut.fuel_out.injEq] at h
    rw [← h]
    exact hl
  | succ n ih =>
    intro st st' h t l hl
    unfold segmentLoop at h
    cases hi : segmentIter ctx st with
    | error e => rw [hi] at h; simp at h
    | ok o =>
      rw [hi] at h
      cases o with
      | inl e => simp at h
      | inr st1 => exact ih h (segmentIter_wc hi hl)

/-- C9: within a single `segment` call the word-analysis cache queries
the lexicon at most once per distinct surface form. Concretely: (a) on a
form already cached, `analyze_pada` returns the cache unchanged — the
lexicon is not consulted, whatever the current split's flags; (b) on a
first encounter, the stored list is the unpacked lexicon analyses plus
the sentinel `Pada::None` exactly when *that first* split was
end-of-chunk or the form starts with a non-Sanskrit character; (c) across
the whole loop, an entry once stored is never modified — every later
split producing the same form reuses it unchanged. -/
theorem c9_cache_once (ctx : Segmenter) :
    (∀ (text : String) (split : Split) (cache : List (String × List Pada)),
      (List.lookup text cache).isSome →
      analyze_pada text split ctx cache = Except.ok cache) ∧
    (∀ (text : String) (split : Split) (cache : List (String × List Pada))
      (res : List Pada),
      List.lookup text cache = Option.none →
      (ctx.lexicon.get_all text).mapM ctx.lexicon.unpack = Except.ok res →
      analyze_pada text split ctx cache = Except.ok ((text,
        if split.is_end_of_chunk || startsWithNonSanskrit ctx.is_sanskrit text
        then res ++ [Pada.none] else res) :: cache)) ∧
    (∀ (fuel : Nat) (st st' : SearchState) (t : String) (l : List Pada),
      segmentLoop ctx fuel st = Except.ok (LoopOut.fuel_out st') →
      List.lookup t st.word_cache = some l →
      List.lookup t st'.word_cache = some l) := by
  refine ⟨?_, ?_, ?_⟩
  · intro text split cache hsome
    unfold analyze_pada
    rw [if_pos hsome]
  · intro text split cache res hnone hmap
    unfold analyze_pada
    rw [hnone, hmap]
    rfl
  · intro fuel st st' t l h hl
    exact segmentLoop_wc h hl

/-- The search state of the run of `ctx1` on `"k1"` after two loop
iterations. -/
def st2ex : SearchState :=
  { pq := [(phrD, -3), (phrA, -2)],
    word_cache := [("k", [Pada.tag 1]), ("k1", [Pada.tag 0])],
    viterbi := vFinal }

/-- C9 (witness): the theorem at concrete inputs — a cache hit for `"k"`
returns the cache unchanged even under a split whose `is_end_of_chunk`
flag differs from the first encounter; a miss for `"k1"` stores the
unpacked analyses (no sentinel, since the split is not end-of-chunk and
`"k1"` starts with a Sanskrit sound); and the `"k1"` entry survives a
loop iteration of the `ctx1` run untouched. -/
theorem c9_witness :
    analyze_pada "k"
        { first := "x", second := "y", is_end_of_chunk := true, valid := true }
        ctx1 [("k", [Pada.tag 1])] = Except.ok [("k", [Pada.tag 1])] ∧
    analyze_pada "k1"
        { first := "k1", second := "", is_end_of_chunk := false, valid := true }
        ctx1 [] = Except.ok [("k1", [Pada.tag 0])] ∧
    List.lookup "k1" st2ex.word_cache = some [Pada.tag 0] :=
  ⟨(c9_cache_once ctx1).1 "k"
      { first := "x", second := "y", is_end_of_chunk := true, valid := true }
      [("k", [Pada.tag 1])] (by decide),
   (c9_cache_once ctx1).2.1 "k1"
      { first := "k1", second := "", is_end_of_chunk := false, valid := true }
      [] [Pada.tag 0] rfl rfl,
   (c9_cache_once ctx1).2.2 1 st1ex st2ex "k1" [Pada.tag 0] rfl (by decide)⟩

end Vidyut
